import Mathlib

/-!
Shallow embedding of the Partially-Integrated-Autonomy scheduling core
(src/agents/Health.py, src/core/orchestrator.py, src/core/command_center.py,
src/core/delegation_tree.py, src/BaseAgent.py) together with theorems that
settle the spec claims.  Python floats are modelled as rationals, Python
dicts as insertion-ordered association lists, and Python exceptions as
explicit outcome values.
-/

namespace PIA

/-! ### HealthHistory (src/agents/Health.py)

`health_scores` is a deque kept in chronological order (oldest first);
it is embedded as a `List ℚ`.  `get_ewma` in the source reads
`health_scores[0]` (an `IndexError` on an empty deque, modelled as `none`)
and then folds `ewma = alpha*score + (1-alpha)*ewma` over *every* element
of the deque, the seed included.  `get_average` divides by the length
(a `ZeroDivisionError` on an empty deque, modelled as `none`). -/

def ewmaStep (alpha : ℚ) (ewma score : ℚ) : ℚ :=
  alpha * score + (1 - alpha) * ewma

namespace HealthHistory

def get_ewma (scores : List ℚ) (alpha : ℚ) : Option ℚ :=
  match scores with
  | [] => none
  | s :: _ => some (scores.foldl (ewmaStep alpha) s)

def get_average (scores : List ℚ) : Option ℚ :=
  match scores with
  | [] => none
  | _ => some (scores.sum / scores.length)

end HealthHistory

/-- The EWMA fold exactly as the spec words it: seed with the oldest
sample, then fold forward over the *remaining* samples only.  Used to
compare the source's `get_ewma` against the spec's description. -/
def ewmaSpecFold (scores : List ℚ) (alpha : ℚ) : Option ℚ :=
  match scores with
  | [] => none
  | s :: rest => some (rest.foldl (ewmaStep alpha) s)

theorem ewmaStep_self (alpha s : ℚ) : ewmaStep alpha s s = s := by
  unfold ewmaStep; ring

theorem ewmaStep_one (alpha : ℚ) : ewmaStep alpha 1 1 = 1 :=
  ewmaStep_self alpha 1

theorem foldl_ewmaStep_replicate_one (alpha : ℚ) (n : ℕ) :
    (List.replicate n (1 : ℚ)).foldl (ewmaStep alpha) 1 = 1 := by
  induction n with
  | zero => rfl
  | succ k ih =>
      rw [List.replicate_succ, List.foldl_cons, ewmaStep_one]
      exact ih

/-- Claim C3: on every non-empty window, `get_ewma` returns exactly the
value described by the spec (seed with the oldest sample, fold over the
remaining samples); on the window `[1, -0.5, -1]` with `alpha = 0.1` it
returns `0.665` within `1e-5`; and on an all-ones window it returns `1`
for every `alpha`. -/
theorem get_ewma_matches_spec (w : List ℚ) (alpha : ℚ) (hw : w ≠ []) :
    HealthHistory.get_ewma w alpha = ewmaSpecFold w alpha
    ∧ (∃ q : ℚ, HealthHistory.get_ewma [1, -1/2, -1] (1/10) = some q
        ∧ |q - 133/200| ≤ 1/100000)
    ∧ (∀ n : ℕ, ∀ a : ℚ,
        HealthHistory.get_ewma (List.replicate (n+1) 1) a = some 1) := by
  refine ⟨?_, ?_, ?_⟩
  · match w with
    | [] => exact absurd rfl hw
    | s :: rest =>
        simp only [HealthHistory.get_ewma, ewmaSpecFold, List.foldl_cons,
          ewmaStep_self]
  · refine ⟨133/200, ?_, by norm_num⟩
    simp only [HealthHistory.get_ewma, List.foldl_cons, List.foldl_nil, ewmaStep]
    norm_num
  · intro n a
    simp only [List.replicate_succ, HealthHistory.get_ewma, List.foldl_cons,
      ewmaStep_one, foldl_ewmaStep_replicate_one]

/-- Witness for `get_ewma_matches_spec` at the concrete window
`[1, -1/2, -1]`. -/
theorem get_ewma_matches_spec_witness :
    ([(1 : ℚ), -1/2, -1] ≠ [])
    ∧ (HealthHistory.get_ewma [1, -1/2, -1] (1/10)
        = ewmaSpecFold [1, -1/2, -1] (1/10)) := by
  refine ⟨by simp, ?_⟩
  exact (get_ewma_matches_spec [1, -1/2, -1] (1/10) (by simp)).1

/-- Claim C9: contrary to the claim, querying an artificially emptied
window does not return the sentinel 0: `get_ewma` reads
`health_scores[0]` (an `IndexError`, modelled as `none`) and
`get_average` divides by zero (a `ZeroDivisionError`, modelled as
`none`).  The repository's own unit test (src/tests/unittest health.py)
asserts the sentinel behaviour against a local guarded copy of the
class, so src/agents/Health.py contradicts the repository's tests. -/
theorem get_ewma_empty_raises :
    HealthHistory.get_ewma [] (1/10) = none
    ∧ HealthHistory.get_average [] = none
    ∧ HealthHistory.get_ewma [] (1/10) ≠ some 0
    ∧ HealthHistory.get_average [] ≠ some 0 := by
  refine ⟨rfl, rfl, by simp [HealthHistory.get_ewma], by simp [HealthHistory.get_average]⟩

/-! ### Task

Modelled from the spec: the file core/task.py (class `Task`) is not under
src/; only its callers are.  The spec (§3, §4.1) gives the attributes
(`type`, `priority` integer, `attempt_count`, `max_retries`, `status`,
`children`, `assigned_to`) and the operations `update_status` (an
unconditional write), `increment_attempt`, `can_retry`, `add_child`,
`is_overdue` (deadline set and now past it — time-dependent, embedded as
the boolean field `overdue`). -/

/-- Modelled from the spec: core/task.py is missing from src/; fields and
operations follow §3 and §4.1 of the specification. -/
structure Task where
  id : String
  type : String
  priority : ℤ
  attempt_count : ℕ
  max_retries : ℕ
  status : String
  overdue : Bool
  children : List String
  assigned_to : Option String
deriving DecidableEq

/-- Modelled from the spec: `Task.add_child(id)` appends the id to the
task's own child list (§4.1). -/
def Task.add_child (t : Task) (cid : String) : Task :=
  { t with children := t.children ++ [cid] }

/-! ### Orchestrator agent view (src/core/orchestrator.py)

`_assign_task` reads, for each registered agent: `skills` (here plain
strings, as constructed by `BaseAgent.__init__`), `workload`,
`getattr(agent, 'capacity', 10)` (no `capacity` attribute on `BaseAgent`,
hence `Option ℕ` with default 10), `health_history.get_ewma()` (default
`alpha = 0.1`) and `access_level`. -/

structure Agent where
  id : String
  skills : List String
  workload : ℕ
  capacity : Option ℕ
  healthWindow : List ℚ
  access_level : ℤ
deriving DecidableEq

def Agent.capacityOrDefault (a : Agent) : ℕ := a.capacity.getD 10

/-- `agent.health_history.get_ewma()` with the default alpha 0.1.  The
source raises on an empty window; `getD 0` is junk there, and every
theorem that scores agents assumes non-empty windows. -/
def Agent.health_ewma (a : Agent) : ℚ :=
  (HealthHistory.get_ewma a.healthWindow (1/10)).getD 0

/-- The skill-matching loop of `_assign_task`: with string skills the
`isinstance(agent_skill, str)` branch applies and the match is exact
string equality against `task.type`. -/
def skillMatch (a : Agent) (ty : String) : Bool :=
  a.skills.contains ty

/-- An agent survives both `continue` guards of the scoring loop: its
skills match the task type, and its workload is strictly below its
capacity. -/
def isCandidate (a : Agent) (ty : String) : Bool :=
  skillMatch a ty && decide (a.workload < a.capacityOrDefault)

/-- `suitability_score` exactly as computed in `_assign_task`. -/
def suitability_score (a : Agent) : ℚ :=
  a.health_ewma * 10
    - (a.workload : ℚ) / (a.capacityOrDefault : ℚ)
    + (a.access_level : ℚ) * (1/10)

/-- The best-candidate selection loop: `best_agent` starts as `None`
(`best_score = -inf`, so the first candidate is always adopted) and a
later candidate replaces the current best only when its score is
strictly greater. -/
def pickBestAux (ty : String) : List Agent → Option (Agent × ℚ) → Option (Agent × ℚ)
  | [], best => best
  | a :: rest, best =>
      pickBestAux ty rest
        (if isCandidate a ty then
          match best with
          | none => some (a, suitability_score a)
          | some (b, bs) =>
              if bs < suitability_score a then some (a, suitability_score a)
              else some (b, bs)
        else best)

def pickBest (agents : List Agent) (ty : String) : Option (Agent × ℚ) :=
  pickBestAux ty agents none

/-- Outcome of one `_assign_task` pass on a popped task.  `requeued t`
models `self.add_task(t)` (the task is pushed back into the pending
queue); `deadLetter t` models the exhausted-retries branch (status set
to "failed", no re-enqueue); `assigned t aid` models a successful
`receive_task` on agent `aid`. -/
inductive AssignResult where
  | deadline (t : Task)
  | assigned (t : Task) (agentId : String)
  | requeued (t : Task)
  | deadLetter (t : Task)
deriving DecidableEq

/-- The shared failure path of `_assign_task`: lower the priority by one
with floor 1 and increment `attempt_count`. -/
def requeueUpdate (t : Task) : Task :=
  { t with priority := max 1 (t.priority - 1),
           attempt_count := t.attempt_count + 1 }

def retryOrFail (maxRetries : ℕ) (t : Task) : AssignResult :=
  let t' := requeueUpdate t
  if t'.attempt_count > maxRetries then
    AssignResult.deadLetter { t' with status := "failed" }
  else
    AssignResult.requeued t'

/-- `_assign_task` on a popped task `t`.  `receiveOk` stands for the
boolean returned by `best_agent.receive_task(task)`. -/
def assignTask (agents : List Agent) (maxRetries : ℕ) (t : Task)
    (receiveOk : Bool) : AssignResult :=
  if t.overdue then
    AssignResult.deadline { t with status := "failed_deadline" }
  else
    match pickBest agents t.type with
    | some (a, _) =>
        if receiveOk then
          AssignResult.assigned { t with assigned_to := some a.id } a.id
        else retryOrFail maxRetries t
    | none => retryOrFail maxRetries t

/-- The candidate condition exactly as the spec words it, for comparison
with the source-derived `isCandidate`. -/
def specCandidate (a : Agent) (ty : String) : Prop :=
  ty ∈ a.skills ∧ a.workload < a.capacityOrDefault

theorem pickBestAux_from_some (ty : String) :
    ∀ (l : List Agent) (b : Agent),
      ∃ c : Agent,
        pickBestAux ty l (some (b, suitability_score b))
          = some (c, suitability_score c)
        ∧ (∀ a ∈ l, isCandidate a ty = true →
            suitability_score a ≤ suitability_score c)
        ∧ suitability_score b ≤ suitability_score c
        ∧ (c = b ∨
            ∃ l1 l2, l = l1 ++ c :: l2 ∧ isCandidate c ty = true
              ∧ suitability_score b < suitability_score c
              ∧ ∀ a ∈ l1, isCandidate a ty = true →
                  suitability_score a < suitability_score c) := by
  intro l
  induction l with
  | nil =>
      intro b
      exact ⟨b, rfl, by simp, le_refl _, Or.inl rfl⟩
  | cons a rest ih =>
      intro b
      by_cases hca : isCandidate a ty = true
      · by_cases hlt : suitability_score b < suitability_score a
        · obtain ⟨c, heq, hmax, hle, hsplit⟩ := ih a
          have hstep : pickBestAux ty (a :: rest) (some (b, suitability_score b))
              = pickBestAux ty rest (some (a, suitability_score a)) := by
            simp [pickBestAux, hca, hlt]
          refine ⟨c, hstep.trans heq, ?_, le_of_lt (lt_of_lt_of_le hlt hle), ?_⟩
          · intro x hx hcx
            rcases List.mem_cons.mp hx with hxa | hxr
            · exact hxa ▸ hle
            · exact hmax x hxr hcx
          · rcases hsplit with hcb | ⟨l1, l2, hl, hcc, hblt, hl1⟩
            · refine Or.inr ⟨[], rest, by simp [hcb], hcb ▸ hca, hcb ▸ hlt, by simp⟩
            · refine Or.inr ⟨a :: l1, l2, by simp [hl], hcc, lt_trans hlt hblt, ?_⟩
              intro x hx hcx
              rcases List.mem_cons.mp hx with hxa | hxr
              · exact hxa ▸ hblt
              · exact hl1 x hxr hcx
        · obtain ⟨c, heq, hmax, hle, hsplit⟩ := ih b
          have hstep : pickBestAux ty (a :: rest) (some (b, suitability_score b))
              = pickBestAux ty rest (some (b, suitability_score b)) := by
            simp [pickBestAux, hca, hlt]
          have hab : suitability_score a ≤ suitability_score b := le_of_not_lt hlt
          refine ⟨c, hstep.trans heq, ?_, hle, ?_⟩
          · intro x hx hcx
            rcases List.mem_cons.mp hx with hxa | hxr
            · exact hxa ▸ le_trans hab hle
            · exact hmax x hxr hcx
          · rcases hsplit with hcb | ⟨l1, l2, hl, hcc, hblt, hl1⟩
            · exact Or.inl hcb
            · refine Or.inr ⟨a :: l1, l2, by simp [hl], hcc, hblt, ?_⟩
              intro x hx hcx
              rcases List.mem_cons.mp hx with hxa | hxr
              · exact hxa ▸ lt_of_le_of_lt hab hblt
              · exact hl1 x hxr hcx
      · obtain ⟨c, heq, hmax, hle, hsplit⟩ := ih b
        have hstep : pickBestAux ty (a :: rest) (some (b, suitability_score b))
            = pickBestAux ty rest (some (b, suitability_score b)) := by
          simp [pickBestAux, hca]
        refine ⟨c, hstep.trans heq, ?_, hle, ?_⟩
        · intro x hx hcx
          rcases List.mem_cons.mp hx with hxa | hxr
          · exact absurd (hxa ▸ hcx) hca
          · exact hmax x hxr hcx
        · rcases hsplit with hcb | ⟨l1, l2, hl, hcc, hblt, hl1⟩
          · exact Or.inl hcb
          · refine Or.inr ⟨a :: l1, l2, by simp [hl], hcc, hblt, ?_⟩
            intro x hx hcx
            rcases List.mem_cons.mp hx with hxa | hxr
            · exact absurd (hxa ▸ hcx) hca
            · exact hl1 x hxr hcx

theorem pickBest_spec (agents : List Agent) (ty : String) :
    (pickBest agents ty = none → ∀ a ∈ agents, isCandidate a ty = false)
    ∧ (∀ c s, pickBest agents ty = some (c, s) →
        c ∈ agents ∧ isCandidate c ty = true ∧ s = suitability_score c
        ∧ (∀ a ∈ agents, isCandidate a ty = true →
            suitability_score a ≤ suitability_score c)
        ∧ ∃ l1 l2, agents = l1 ++ c :: l2
            ∧ ∀ a ∈ l1, isCandidate a ty = true →
                suitability_score a < suitability_score c) := by
  induction agents with
  | nil =>
      refine ⟨fun _ a ha => absurd ha (List.not_mem_nil a), ?_⟩
      intro c s h
      simp [pickBest, pickBestAux] at h
  | cons a rest ih =>
      by_cases hca : isCandidate a ty = true
      · have hstep : pickBest (a :: rest) ty
            = pickBestAux ty rest (some (a, suitability_score a)) := by
          simp [pickBest, pickBestAux, hca]
        obtain ⟨c, heq, hmax, hle, hsplit⟩ := pickBestAux_from_some ty rest a
        constructor
        · intro hnone
          rw [hstep, heq] at hnone
          exact absurd hnone (by simp)
        · intro c' s' h
          rw [hstep, heq] at h
          simp only [Option.some.injEq, Prod.mk.injEq] at h
          obtain ⟨hc, hs⟩ := h
          subst hc
          refine ⟨?_, ?_, hs.symm, ?_, ?_⟩
          · rcases hsplit with hcb | ⟨l1, l2, hl, _, _, _⟩
            · exact hcb ▸ List.mem_cons_self a rest
            · exact List.mem_cons_of_mem a (hl ▸ List.mem_append_right l1 (List.mem_cons_self c l2))
          · rcases hsplit with hcb | ⟨_, _, _, hcc, _, _⟩
            · exact hcb ▸ hca
            · exact hcc
          · intro x hx hcx
            rcases List.mem_cons.mp hx with hxa | hxr
            · rw [hxa]; exact hle
            · exact hmax x hxr hcx
          · rcases hsplit with hcb | ⟨l1, l2, hl, _, hblt, hl1⟩
            · refine ⟨[], rest, by simp [hcb], by simp⟩
            · refine ⟨a :: l1, l2, by simp [hl], ?_⟩
              intro x hx hcx
              rcases List.mem_cons.mp hx with hxa | hxr
              · rw [hxa]; exact hblt
              · exact hl1 x hxr hcx
      · have hstep : pickBest (a :: rest) ty = pickBest rest ty := by
          simp [pickBest, pickBestAux, hca]
        obtain ⟨ihn, ihs⟩ := ih
        constructor
        · intro hnone x hx
          rcases List.mem_cons.mp hx with hxa | hxr
          · rw [hxa]; exact Bool.eq_false_iff.mpr hca
          · exact ihn (hstep ▸ hnone) x hxr
        · intro c s h
          obtain ⟨hmem, hcc, hs, hmax, l1, l2, hl, hl1⟩ := ihs c s (hstep ▸ h)
          refine ⟨List.mem_cons_of_mem a hmem, hcc, hs, ?_, a :: l1, l2, by simp [hl], ?_⟩
          · intro x hx hcx
            rcases List.mem_cons.mp hx with hxa | hxr
            · exact absurd (hxa ▸ hcx) hca
            · exact hmax x hxr hcx
          · intro x hx hcx
            rcases List.mem_cons.mp hx with hxa | hxr
            · exact absurd (hxa ▸ hcx) hca
            · exact hl1 x hxr hcx

/-- Claim C1: for every popped non-overdue task (windows non-empty so
the health EWMA is defined), an agent is a candidate iff its skills
contain the task's type and its workload is strictly below its capacity
(default 10); each candidate's score is
`health_ewma*10 - workload/capacity + access_level*0.1`; the task is
offered via `receive_task` to the candidate with the greatest score,
ties keeping the first-seen candidate of the snapshot's iteration
order. -/
theorem assign_task_selects_best (agents : List Agent) (maxR : ℕ) (t : Task)
    (hod : t.overdue = false)
    (hwin : ∀ a ∈ agents, a.healthWindow ≠ []) :
    (∀ a ∈ agents, (isCandidate a t.type = true ↔ specCandidate a t.type))
    ∧ (∀ a ∈ agents, HealthHistory.get_ewma a.healthWindow (1/10) = some a.health_ewma)
    ∧ (∀ a : Agent, suitability_score a
        = a.health_ewma * 10 - (a.workload : ℚ) / (a.capacityOrDefault : ℚ)
          + (a.access_level : ℚ) * (1/10))
    ∧ (pickBest agents t.type = none → ∀ a ∈ agents, isCandidate a t.type = false)
    ∧ (∀ c s, pickBest agents t.type = some (c, s) →
        c ∈ agents ∧ isCandidate c t.type = true ∧ s = suitability_score c
        ∧ (∀ a ∈ agents, isCandidate a t.type = true →
            suitability_score a ≤ suitability_score c)
        ∧ (∃ l1 l2, agents = l1 ++ c :: l2
            ∧ ∀ a ∈ l1, isCandidate a t.type = true →
                suitability_score a < suitability_score c)
        ∧ assignTask agents maxR t true
            = AssignResult.assigned { t with assigned_to := some c.id } c.id) := by
  obtain ⟨hnone, hsome⟩ := pickBest_spec agents t.type
  refine ⟨?_, ?_, fun a => rfl, hnone, ?_⟩
  · intro a _
    simp [isCandidate, skillMatch, specCandidate]
  · intro a ha
    obtain ⟨s, rest, hw⟩ := List.exists_cons_of_ne_nil (hwin a ha)
    simp [Agent.health_ewma, HealthHistory.get_ewma, hw]
  · intro c s h
    obtain ⟨hmem, hcc, hs, hmax, hsplit⟩ := hsome c s h
    refine ⟨hmem, hcc, hs, hmax, hsplit, ?_⟩
    simp [assignTask, hod, h]

/-- Witness for `assign_task_selects_best`: one agent with skill "x",
capacity 1, health window all 1.0, access level 1, and a type-"x" task;
the task is assigned to that agent. -/
theorem assign_task_selects_best_witness :
    assignTask [⟨"a1", ["x"], 0, some 1, [1], 1⟩] 3
        ⟨"t1", "x", 5, 0, 3, "pending", false, [], none⟩ true
      = AssignResult.assigned
          ⟨"t1", "x", 5, 0, 3, "pending", false, [], some "a1"⟩ "a1" := by
  have h := (assign_task_selects_best
      [⟨"a1", ["x"], 0, some 1, [1], 1⟩] 3
      ⟨"t1", "x", 5, 0, 3, "pending", false, [], none⟩
      rfl (by decide)).2.2.2.2
      ⟨"a1", ["x"], 0, some 1, [1], 1⟩
      (suitability_score ⟨"a1", ["x"], 0, some 1, [1], 1⟩) rfl
  exact h.2.2.2.2.2

/-- Claim C2: whenever `_assign_task` pops a non-overdue task and either
no candidate exists or the chosen agent's `receive_task` reports
failure, the task's priority becomes `max 1 (priority - 1)` and its
attempt count increases by one; past the orchestrator's max retries the
task is marked failed and not re-enqueued, otherwise it is pushed back
into the pending queue. -/
theorem assign_task_requeue_on_failure (agents : List Agent) (maxR : ℕ)
    (t : Task) (receiveOk : Bool) (hod : t.overdue = false)
    (hfail : pickBest agents t.type = none ∨ receiveOk = false) :
    (requeueUpdate t).priority = max 1 (t.priority - 1)
    ∧ (requeueUpdate t).attempt_count = t.attempt_count + 1
    ∧ assignTask agents maxR t receiveOk
        = (if (requeueUpdate t).attempt_count > maxR
           then AssignResult.deadLetter { requeueUpdate t with status := "failed" }
           else AssignResult.requeued (requeueUpdate t)) := by
  refine ⟨rfl, rfl, ?_⟩
  rcases hfail with hnone | hro
  · cases hro : receiveOk <;> simp [assignTask, hod, hnone, retryOrFail]
  · subst hro
    cases hpb : pickBest agents t.type with
    | none => simp [assignTask, hod, hpb, retryOrFail]
    | some p => simp [assignTask, hod, hpb, retryOrFail]

/-- Witness for `assign_task_requeue_on_failure`: a priority-5 task of
type "x" with zero registered agents is re-queued at priority 4 with its
attempt count incremented to 1. -/
theorem assign_task_requeue_on_failure_witness :
    assignTask [] 3 ⟨"t1", "x", 5, 0, 3, "pending", false, [], none⟩ true
      = AssignResult.requeued ⟨"t1", "x", 4, 1, 3, "pending", false, [], none⟩ := by
  have h := (assign_task_requeue_on_failure [] 3
      ⟨"t1", "x", 5, 0, 3, "pending", false, [], none⟩ true rfl (Or.inl rfl)).2.2
  rw [h]
  decide

/-! ### Messaging (src/BaseAgent.py, receive_message)

A message dict is embedded as its `task_id` entry plus an opaque
payload; a Python dict keyed by strings is an insertion-ordered
association list; `log_activity` entries keep event, task id and the
sender component of the detail f-string.  The whole body of
`receive_message` runs inside `try: ... except Exception: return False`,
so `receive_message_try` gives the body's outcome and `receive_message`
the outcome after the blanket handler. -/

structure Msg where
  task_id : Option String
  payload : String
deriving DecidableEq

structure LogEntry where
  event : String
  task_id : Option String
  details : Option String
deriving DecidableEq

/-- First-match association-list lookup; the embedding of Python dict
indexing and `in` tests. -/
def alookup {α : Type} : List (String × α) → String → Option α
  | [], _ => none
  | p :: rest, k => if p.1 = k then some p.2 else alookup rest k

/-- Python dict assignment `d[k] = v`: replace in place when the key
exists, append otherwise. -/
def dictInsert {α : Type} (l : List (String × α)) (k : String) (v : α) :
    List (String × α) :=
  if (alookup l k).isSome then
    l.map fun p => if p.1 = k then (k, v) else p
  else l ++ [(k, v)]

structure AgentCommSt where
  access_level : ℤ
  communication_channel : List (String × Msg)
  audit_log : List LogEntry
deriving DecidableEq

/-- Outcome of a Python call: a returned value or an uncaught
exception. -/
inductive PyOutcome where
  | ret (b : Bool)
  | raised (e : String)
deriving DecidableEq

def accessDeniedEntry (sender_id : String) : LogEntry :=
  ⟨"ACCESS_DENIED", none, some ("From: " ++ sender_id)⟩

/-- The body of `receive_message` before the enclosing
`except Exception` handler.  `senderLevel` is the access level of the
agent the registry resolves `sender_id` to, or `none` when unknown. -/
def receive_message_try (self : AgentCommSt) (senderLevel : Option ℤ)
    (sender_id : String) (message : Msg) : AgentCommSt × PyOutcome :=
  match senderLevel with
  | none => (self, PyOutcome.ret false)
  | some lvl =>
      if lvl < self.access_level then
        ({ self with audit_log := self.audit_log ++ [accessDeniedEntry sender_id] },
         PyOutcome.raised "AccessDeniedError")
      else
        ({ self with
            communication_channel :=
              dictInsert self.communication_channel sender_id message,
            audit_log := self.audit_log ++
              [⟨"MESSAGE_RECEIVED", message.task_id, some ("From: " ++ sender_id)⟩] },
         PyOutcome.ret true)

/-- `receive_message` as the caller observes it: the blanket
`except Exception: return False` turns any raised exception into a
`False` return, keeping the mutations made before the raise. -/
def receive_message (self : AgentCommSt) (senderLevel : Option ℤ)
    (sender_id : String) (message : Msg) : AgentCommSt × PyOutcome :=
  match receive_message_try self senderLevel sender_id message with
  | (st, PyOutcome.raised _) => (st, PyOutcome.ret false)
  | r => r

/-- Claim C5: at the failing input (receiver at access level 2, sender
resolved at level 1) the body does raise `AccessDeniedError` after
appending the `ACCESS_DENIED` audit entry and leaving the channel
unchanged, but the method's own blanket exception handler swallows it:
the caller sees `False`, exactly the observable of the unknown-sender
case, not a raised condition. -/
theorem receive_message_denied_swallowed :
    receive_message_try ⟨2, [], []⟩ (some 1) "s1" ⟨none, "hello"⟩
      = (⟨2, [], [accessDeniedEntry "s1"]⟩, PyOutcome.raised "AccessDeniedError")
    ∧ receive_message ⟨2, [], []⟩ (some 1) "s1" ⟨none, "hello"⟩
      = (⟨2, [], [accessDeniedEntry "s1"]⟩, PyOutcome.ret false)
    ∧ (receive_message ⟨2, [], []⟩ (some 1) "s1" ⟨none, "hello"⟩).2
      = (receive_message ⟨2, [], []⟩ none "s1" ⟨none, "hello"⟩).2 := by
  refine ⟨?_, ?_, ?_⟩ <;> rfl

/-! ### Workload counter (src/BaseAgent.py)

`receive_task` pushes and does `workload += 1`; `process_task` on a
non-empty queue pops, does `workload = max(0, workload - 1)`, and on a
retryable execution failure re-enqueues and does `workload += 1`;
`reset` replaces the queue and sets `workload = 0`.  The workload is a
Python int, embedded as `ℤ`. -/

inductive ExecOutcome where
  | success
  | retryableFailure
  | terminalFailure
deriving DecidableEq

inductive AgentOp where
  | receiveTask
  | processTask (oc : ExecOutcome)
  | reset
deriving DecidableEq

structure WorkSt where
  workload : ℤ
  queueLen : ℕ
deriving DecidableEq

def agentStep (s : WorkSt) : AgentOp → WorkSt
  | AgentOp.receiveTask => ⟨s.workload + 1, s.queueLen + 1⟩
  | AgentOp.processTask oc =>
      if s.queueLen = 0 then s
      else
        match oc with
        | ExecOutcome.retryableFailure => ⟨max 0 (s.workload - 1) + 1, s.queueLen⟩
        | _ => ⟨max 0 (s.workload - 1), s.queueLen - 1⟩
  | AgentOp.reset => ⟨0, 0⟩

def initialWorkSt : WorkSt := ⟨0, 0⟩

/-- Claim C10: starting from a fresh agent, no sequence of
`receive_task`, `process_task` (with any execution outcome) and `reset`
operations ever drives the workload counter negative. -/
theorem workload_never_negative (ops : List AgentOp) :
    0 ≤ (ops.foldl agentStep initialWorkSt).workload := by
  have key : ∀ (l : List AgentOp) (s : WorkSt), 0 ≤ s.workload →
      0 ≤ (l.foldl agentStep s).workload := by
    intro l
    induction l with
    | nil => exact fun s hs => hs
    | cons op rest ih =>
        intro s hs
        refine ih (agentStep s op) ?_
        cases op with
        | receiveTask => simp only [agentStep]; omega
        | processTask oc =>
            by_cases h0 : s.queueLen = 0 <;> cases oc <;>
              simp only [agentStep, h0, if_true, if_false, reduceIte] <;> omega
        | reset => simp [agentStep]
  exact key ops initialWorkSt le_rfl

/-! ### DelegationTree (src/core/delegation_tree.py) and
CommandCenter.cancel_task (src/core/command_center.py)

Python dicts become insertion-ordered association lists.  The recursion
of `_cancel_recursive` is embedded with an explicit `fuel` parameter
standing for the call stack; theorems assume fuel large enough for the
tree at hand (Python recurses unboundedly). -/

structure DTree where
  tasks : List (String × Task)
  relationships : List (String × List String)
deriving DecidableEq

def lookupTask (tr : DTree) (tid : String) : Option Task :=
  alookup tr.tasks tid

def childrenOf (tr : DTree) (tid : String) : List String :=
  (alookup tr.relationships tid).getD []

/-- `task.update_status("...")` on the task stored under `tid`
(modelled from the spec: `update_status` is an unconditional write). -/
def setStatus (tr : DTree) (tid : String) (s : String) : DTree :=
  { tr with
    tasks := tr.tasks.map fun p =>
      if p.1 = tid then (p.1, { p.2 with status := s }) else p }

theorem alookup_map_status (tid s : String) :
    ∀ (l : List (String × Task)) (y : String),
      alookup (l.map fun p => if p.1 = tid then (p.1, { p.2 with status := s }) else p) y
        = (alookup l y).map fun u => if y = tid then { u with status := s } else u := by
  intro l
  induction l with
  | nil => intro y; rfl
  | cons p rest ih =>
      intro y
      obtain ⟨k, v⟩ := p
      by_cases hkt : k = tid
      · subst hkt
        by_cases hky : k = y
        · subst hky
          simp [alookup]
        · simp [alookup, hky, ih]
      · by_cases hky : k = y
        · subst hky
          simp [alookup, hkt, Ne.symm hkt]
        · simp [alookup, hkt, hky, ih]

theorem lookupTask_setStatus (tr : DTree) (tid s y : String) :
    lookupTask (setStatus tr tid s) y
      = (lookupTask tr y).map fun u => if y = tid then { u with status := s } else u :=
  alookup_map_status tid s tr.tasks y

/-- Transitive-descendant relation through the adjacency map, restricted
(as `_cancel_recursive` is) to chains of tasks that exist in the task
map. -/
inductive ReachT (tr : DTree) : String → String → Prop
  | refl (x : String) (hx : (lookupTask tr x).isSome) : ReachT tr x x
  | step (x c d : String) (hx : (lookupTask tr x).isSome)
      (hc : c ∈ childrenOf tr x) (hcd : ReachT tr c d) : ReachT tr x d

/-- `_cancel_recursive(tid)`: if the task exists, write status
"cancelled" and recurse into its adjacency children on the evolving
tree. -/
def cancelRec (fuel : ℕ) (tr : DTree) (tid : String) : DTree :=
  match fuel with
  | 0 => tr
  | f + 1 =>
      match lookupTask tr tid with
      | none => tr
      | some _ =>
          (childrenOf (setStatus tr tid "cancelled") tid).foldl
            (fun acc c => cancelRec f acc c) (setStatus tr tid "cancelled")

/-- `CommandCenter.cancel_task`: missing id or a status among
`("completed", "failed", "cancelled")` refuses; otherwise the subtree is
recursively cancelled. -/
def cancel_task (fuel : ℕ) (tr : DTree) (tid : String) : Bool × DTree :=
  match lookupTask tr tid with
  | none => (false, tr)
  | some t =>
      if (["completed", "failed", "cancelled"] : List String).contains t.status then
        (false, tr)
      else (true, cancelRec fuel tr tid)

/-- The only mutation `_cancel_recursive` performs: relationships are
untouched and each task either keeps its record or has just its status
overwritten with "cancelled". -/
def CancelEvolved (tr tr' : DTree) : Prop :=
  tr'.relationships = tr.relationships ∧
  ∀ y, lookupTask tr' y = lookupTask tr y ∨
    ∃ u, lookupTask tr y = some u
      ∧ lookupTask tr' y = some { u with status := "cancelled" }

theorem CancelEvolved.rfl (tr : DTree) : CancelEvolved tr tr :=
  ⟨Eq.refl _, fun _ => Or.inl (Eq.refl _)⟩

theorem CancelEvolved.trans {t1 t2 t3 : DTree}
    (h12 : CancelEvolved t1 t2) (h23 : CancelEvolved t2 t3) :
    CancelEvolved t1 t3 := by
  refine ⟨h23.1.trans h12.1, ?_⟩
  intro y
  rcases h23.2 y with he | ⟨u, hu1, hu2⟩
  · rcases h12.2 y with he' | ⟨v, hv1, hv2⟩
    · exact Or.inl (he.trans he')
    · exact Or.inr ⟨v, hv1, he.trans hv2⟩
  · rcases h12.2 y with he' | ⟨v, hv1, hv2⟩
    · exact Or.inr ⟨u, he' ▸ hu1, hu2⟩
    · have huv : u = { v with status := "cancelled" } := by
        rw [hu1] at hv2
        exact Option.some.inj hv2
      refine Or.inr ⟨v, hv1, ?_⟩
      rw [hu2, huv]

theorem CancelEvolved.isSome_eq {tr tr' : DTree} (h : CancelEvolved tr tr')
    (y : String) : (lookupTask tr' y).isSome = (lookupTask tr y).isSome := by
  rcases h.2 y with he | ⟨u, hu1, hu2⟩
  · rw [he]
  · rw [hu1, hu2]
    rfl

theorem CancelEvolved.childrenOf_eq {tr tr' : DTree} (h : CancelEvolved tr tr')
    (y : String) : childrenOf tr' y = childrenOf tr y := by
  unfold childrenOf
  rw [h.1]

theorem CancelEvolved.keeps_cancelled {tr tr' : DTree} (h : CancelEvolved tr tr')
    {y : String} {u : Task} (h1 : lookupTask tr y = some u)
    (h2 : u.status = "cancelled") :
    ∃ u', lookupTask tr' y = some u' ∧ u'.status = "cancelled" := by
  rcases h.2 y with he | ⟨v, hv1, hv2⟩
  · exact ⟨u, he.trans h1, h2⟩
  · have huv : v = u := Option.some.inj (hv1.symm.trans h1)
    exact ⟨{ v with status := "cancelled" }, hv2, Eq.refl _⟩

theorem ReachT_of_evolved {tr tr' : DTree} (h : CancelEvolved tr tr')
    {x d : String} (hr : ReachT tr x d) : ReachT tr' x d := by
  induction hr with
  | refl x hx => exact ReachT.refl x ((h.isSome_eq x).symm ▸ hx)
  | step x c d hx hc _ ih =>
      exact ReachT.step x c d ((h.isSome_eq x).symm ▸ hx)
        ((h.childrenOf_eq x).symm ▸ hc) ih

theorem setStatus_evolved (tr : DTree) (tid : String) :
    CancelEvolved tr (setStatus tr tid "cancelled") := by
  refine ⟨Eq.refl _, ?_⟩
  intro y
  rw [lookupTask_setStatus]
  by_cases hy : y = tid
  · cases hl : lookupTask tr y with
    | none => exact Or.inl (by simp)
    | some u => exact Or.inr ⟨u, Eq.refl _, by simp [hy]⟩
  · refine Or.inl ?_
    simp [hy]

theorem cancelRec_zero (tr : DTree) (x : String) : cancelRec 0 tr x = tr := rfl

theorem cancelRec_succ_some (f : ℕ) (tr : DTree) (x : String) (t : Task)
    (h : lookupTask tr x = some t) :
    cancelRec (f + 1) tr x
      = (childrenOf tr x).foldl (fun acc c => cancelRec f acc c)
          (setStatus tr x "cancelled") := by
  simp only [cancelRec, h]
  rfl

theorem cancelRec_succ_none (f : ℕ) (tr : DTree) (x : String)
    (h : lookupTask tr x = none) :
    cancelRec (f + 1) tr x = tr := by
  simp only [cancelRec, h]

theorem foldl_cancelRec_evolved (f : ℕ)
    (hf : ∀ (tr : DTree) (x : String), CancelEvolved tr (cancelRec f tr x)) :
    ∀ (cs : List String) (acc : DTree),
      CancelEvolved acc (cs.foldl (fun a c => cancelRec f a c) acc) := by
  intro cs
  induction cs with
  | nil => exact fun acc => CancelEvolved.rfl acc
  | cons c0 cs' ih =>
      intro acc
      exact (hf acc c0).trans (ih (cancelRec f acc c0))

theorem cancelRec_evolved :
    ∀ (fuel : ℕ) (tr : DTree) (x : String), CancelEvolved tr (cancelRec fuel tr x) := by
  intro fuel
  induction fuel with
  | zero => exact fun tr x => CancelEvolved.rfl tr
  | succ f ih =>
      intro tr x
      cases hl : lookupTask tr x with
      | none => rw [cancelRec_succ_none f tr x hl]; exact CancelEvolved.rfl tr
      | some t =>
          rw [cancelRec_succ_some f tr x t hl]
          exact (setStatus_evolved tr x).trans
            (foldl_cancelRec_evolved f ih (childrenOf tr x) (setStatus tr x "cancelled"))

theorem cancelRec_cancels (rank : String → ℕ) :
    ∀ (fuel : ℕ) (tr : DTree) (x : String),
      (∀ p c, c ∈ childrenOf tr p → rank c < rank p) →
      rank x < fuel →
      ∀ d, ReachT tr x d →
        ∃ td, lookupTask (cancelRec fuel tr x) d = some td
          ∧ td.status = "cancelled" := by
  intro fuel
  induction fuel with
  | zero =>
      intro tr x _ hfx
      exact absurd hfx (Nat.not_lt_zero _)
  | succ f ih =>
      intro tr x hrank hfx d hreach
      have hx : (lookupTask tr x).isSome := by
        cases hreach with
        | refl _ hx => exact hx
        | step _ _ _ hx _ _ => exact hx
      obtain ⟨t, hlt⟩ := Option.isSome_iff_exists.mp hx
      rw [cancelRec_succ_some f tr x t hlt]
      have hev1 : CancelEvolved tr (setStatus tr x "cancelled") := setStatus_evolved tr x
      -- every child of x fits in the remaining fuel
      have hcs : ∀ c ∈ childrenOf tr x, rank c < f := by
        intro c hc
        have h1 := hrank x c hc
        omega
      -- processing a list of children cancels all their descendants
      have foldlCancels : ∀ (cs : List String) (acc : DTree),
          CancelEvolved tr acc →
          (∀ c ∈ cs, rank c < f) →
          ∀ c ∈ cs, ∀ e, ReachT tr c e →
            ∃ te, lookupTask (cs.foldl (fun a k => cancelRec f a k) acc) e = some te
              ∧ te.status = "cancelled" := by
        intro cs
        induction cs with
        | nil =>
            intro acc _ _ c hc
            exact absurd hc (List.not_mem_nil c)
        | cons c0 cs' ihcs =>
            intro acc hacc hrk c hc e hre
            have hrank_acc : ∀ p q, q ∈ childrenOf acc p → rank q < rank p := by
              intro p q hq
              exact hrank p q ((hacc.childrenOf_eq p) ▸ hq)
            rcases List.mem_cons.mp hc with hc0 | hcs'
            · subst hc0
              have hre_acc : ReachT acc c e := ReachT_of_evolved hacc hre
              obtain ⟨te, hlte, hste⟩ :=
                ih acc c hrank_acc (hrk c (List.mem_cons_self c cs')) e hre_acc
              have hev_rest : CancelEvolved (cancelRec f acc c)
                  (cs'.foldl (fun a k => cancelRec f a k) (cancelRec f acc c)) :=
                foldl_cancelRec_evolved f (fun tr' x' => cancelRec_evolved f tr' x')
                  cs' (cancelRec f acc c)
              obtain ⟨te', hlte', hste'⟩ := hev_rest.keeps_cancelled hlte hste
              exact ⟨te', by simpa using hlte', hste'⟩
            · have hacc' : CancelEvolved tr (cancelRec f acc c0) :=
                hacc.trans (cancelRec_evolved f acc c0)
              have := ihcs (cancelRec f acc c0) hacc'
                (fun q hq => hrk q (List.mem_cons_of_mem c0 hq)) c hcs' e hre
              simpa using this
      cases hreach with
      | refl _ _ =>
          -- x itself is cancelled by the setStatus and stays cancelled
          have hlt1 : lookupTask (setStatus tr x "cancelled") x
              = some { t with status := "cancelled" } := by
            rw [lookupTask_setStatus, hlt]
            simp
          have hev_fold : CancelEvolved (setStatus tr x "cancelled")
              ((childrenOf tr x).foldl (fun a k => cancelRec f a k)
                (setStatus tr x "cancelled")) :=
            foldl_cancelRec_evolved f (fun tr' x' => cancelRec_evolved f tr' x')
              (childrenOf tr x) (setStatus tr x "cancelled")
          exact hev_fold.keeps_cancelled hlt1 (Eq.refl _)
      | step _ c _ _ hc hcd =>
          exact foldlCancels (childrenOf tr x) (setStatus tr x "cancelled")
            hev1 hcs c hc d hcd

/-- Claim C6: for every task present in the delegation tree whose status
is not terminal, `cancel_task` reports true and sets the status of the
task and of every transitive descendant in the tree to "cancelled".
`rank` witnesses that the adjacency map is acyclic and `fuel` bounds the
recursion depth of the embedding. -/
theorem cancel_task_cascades (tr : DTree) (tid : String) (t : Task)
    (fuel : ℕ) (rank : String → ℕ)
    (ht : lookupTask tr tid = some t)
    (hnt : t.status ∉ (["completed", "failed", "cancelled", "failed_deadline"] : List String))
    (hrank : ∀ p c, c ∈ childrenOf tr p → rank c < rank p)
    (hfuel : rank tid < fuel) :
    (cancel_task fuel tr tid).1 = true
    ∧ ∀ d, ReachT tr tid d →
        ∃ td, lookupTask (cancel_task fuel tr tid).2 d = some td
          ∧ td.status = "cancelled" := by
  have hni : ¬(t.status = "completed" ∨ t.status = "failed" ∨ t.status = "cancelled") := by
    intro hor
    apply hnt
    simp only [List.mem_cons, List.not_mem_nil, or_false]
    tauto
  constructor
  · simp [cancel_task, ht, hni]
  · intro d hd
    have h2 : (cancel_task fuel tr tid).2 = cancelRec fuel tr tid := by
      simp [cancel_task, ht, hni]
    rw [h2]
    exact cancelRec_cancels rank fuel tr tid hrank hfuel d hd

def exTaskA : Task := ⟨"a", "x", 5, 0, 3, "pending", false, ["b"], none⟩

def exTaskB : Task := ⟨"b", "x", 5, 0, 3, "pending", false, [], none⟩

def exTree : DTree := ⟨[("a", exTaskA), ("b", exTaskB)], [("a", ["b"]), ("b", [])]⟩

def exRank : String → ℕ := fun s => if s = "a" then 1 else 0

/-- Witness for `cancel_task_cascades`: a two-task tree (task "a" with
child "b", both pending) in which cancelling "a" reports true and leaves
the child "b" cancelled. -/
theorem cancel_task_cascades_witness :
    (cancel_task 2 exTree "a").1 = true
    ∧ (∃ td, lookupTask (cancel_task 2 exTree "a").2 "b" = some td
        ∧ td.status = "cancelled") := by
  have hrank : ∀ p c, c ∈ childrenOf exTree p → exRank c < exRank p := by
    intro p c hc
    by_cases hpa : p = "a"
    · subst hpa
      have hcb : c = "b" := by
        simpa [exTree, childrenOf, alookup] using hc
      subst hcb
      simp [exRank]
    · by_cases hpb : p = "b"
      · subst hpb
        simp [exTree, childrenOf, alookup] at hc
      · simp [exTree, childrenOf, alookup, Ne.symm hpa, Ne.symm hpb] at hc
  have h := cancel_task_cascades exTree "a" exTaskA 2 exRank rfl (by decide)
    hrank (by decide)
  refine ⟨h.1, ?_⟩
  have hreach : ReachT exTree "a" "b" :=
    ReachT.step "a" "b" "b" (by decide) (by decide) (ReachT.refl "b" (by decide))
  exact h.2 "b" hreach

def exTaskFD : Task := ⟨"a", "x", 5, 0, 3, "failed_deadline", false, [], none⟩

def exTreeFD : DTree := ⟨[("a", exTaskFD)], [("a", [])]⟩

/-- Claim C7 counterexample: a task whose status is "failed_deadline" is
*not* refused by `cancel_task` — the source's terminal check only lists
("completed", "failed", "cancelled") — so the call reports true and the
task's status is overwritten with "cancelled", contradicting the claim
that every terminal status (including failed_deadline) yields false and
no change. -/
theorem cancel_task_failed_deadline_cancels :
    (cancel_task 1 exTreeFD "a").1 = true
    ∧ lookupTask (cancel_task 1 exTreeFD "a").2 "a"
        = some { exTaskFD with status := "cancelled" } := by
  exact ⟨by decide, by decide⟩

/-- Claim C7 (amended): for every task whose status is one of
"completed", "failed" or "cancelled" — the source's terminal set, which
omits "failed_deadline" — `cancel_task` returns false and leaves the
tree unchanged. -/
theorem cancel_task_terminal_noop (tr : DTree) (tid : String) (t : Task)
    (fuel : ℕ) (ht : lookupTask tr tid = some t)
    (hterm : t.status ∈ (["completed", "failed", "cancelled"] : List String)) :
    cancel_task fuel tr tid = (false, tr) := by
  have hmem : t.status = "completed" ∨ t.status = "failed" ∨ t.status = "cancelled" := by
    simpa using hterm
  rcases hmem with h | h | h <;> simp [cancel_task, ht, h]

def exTaskDone : Task := ⟨"a", "x", 5, 0, 3, "completed", false, [], none⟩

def exTreeDone : DTree := ⟨[("a", exTaskDone)], [("a", [])]⟩

/-- Witness for `cancel_task_terminal_noop` on a completed task. -/
theorem cancel_task_terminal_noop_witness :
    cancel_task 1 exTreeDone "a" = (false, exTreeDone) :=
  cancel_task_terminal_noop exTreeDone "a" exTaskDone 1 rfl (by decide)

/-! ### DelegationTree.add_task (src/core/delegation_tree.py)

The source stores the task (`self.tasks[task.id] = task`) *before*
validating the parent; `raise DataIntegrityError` then propagates with
the task already registered.  `if parent_id:` is Python truthiness, so
`None` and the empty string both skip the parent block. -/

def add_task (tr : DTree) (t : Task) (parent : Option String) :
    DTree × Except String String :=
  let tasks1 := dictInsert tr.tasks t.id t
  match parent with
  | some pid =>
      if pid = "" then
        (⟨tasks1, dictInsert tr.relationships t.id []⟩, Except.ok t.id)
      else if (alookup tasks1 pid).isNone then
        (⟨tasks1, tr.relationships⟩, Except.error "DataIntegrityError")
      else
        let tasks2 := tasks1.map fun p =>
          if p.1 = pid then (p.1, Task.add_child p.2 t.id) else p
        let rels1 := if (alookup tr.relationships pid).isSome then tr.relationships
                     else tr.relationships ++ [(pid, [])]
        let rels2 := rels1.map fun p =>
          if p.1 = pid then (p.1, p.2 ++ [t.id]) else p
        (⟨tasks2, dictInsert rels2 t.id []⟩, Except.ok t.id)
  | none => (⟨tasks1, dictInsert tr.relationships t.id []⟩, Except.ok t.id)

theorem alookup_map_set_ne {α : Type} (k k' : String) (v : α) (hne : k' ≠ k) :
    ∀ l : List (String × α),
      alookup (l.map fun p => if p.1 = k then (k, v) else p) k' = alookup l k' := by
  intro l
  induction l with
  | nil => rfl
  | cons p rest ih =>
      obtain ⟨a, b⟩ := p
      by_cases hak : a = k
      · subst hak
        simp [alookup, Ne.symm hne, ih]
      · by_cases hak' : a = k'
        · subst hak'
          simp [alookup, hak]
        · simp [alookup, hak, hak', ih]

theorem alookup_map_set_self {α : Type} (k : String) (v : α) :
    ∀ l : List (String × α), (alookup l k).isSome →
      alookup (l.map fun p => if p.1 = k then (k, v) else p) k = some v := by
  intro l
  induction l with
  | nil => intro h; simp [alookup] at h
  | cons p rest ih =>
      intro h
      obtain ⟨a, b⟩ := p
      by_cases hak : a = k
      · subst hak
        simp [alookup]
      · simp [alookup, hak] at h ⊢
        exact ih h

theorem alookup_append_self {α : Type} (k : String) (v : α) :
    ∀ l : List (String × α), alookup l k = none →
      alookup (l ++ [(k, v)]) k = some v := by
  intro l
  induction l with
  | nil => intro _; simp [alookup]
  | cons p rest ih =>
      intro h
      obtain ⟨a, b⟩ := p
      by_cases hak : a = k
      · subst hak
        simp [alookup] at h
      · simp [alookup, hak] at h ⊢
        exact ih h

theorem alookup_append_ne {α : Type} (k k' : String) (v : α) (hne : k' ≠ k) :
    ∀ l : List (String × α), alookup (l ++ [(k, v)]) k' = alookup l k' := by
  intro l
  induction l with
  | nil => simp [alookup, Ne.symm hne]
  | cons p rest ih =>
      obtain ⟨a, b⟩ := p
      by_cases hak' : a = k'
      · subst hak'
        simp [alookup]
      · simp [alookup, hak', ih]

theorem alookup_dictInsert_self {α : Type} (l : List (String × α)) (k : String)
    (v : α) : alookup (dictInsert l k v) k = some v := by
  unfold dictInsert
  cases hs : alookup l k with
  | none => simp only [hs, Option.isSome_none, Bool.false_eq_true, if_false]
            exact alookup_append_self k v l hs
  | some w => simp only [hs, Option.isSome_some, if_true]
              exact alookup_map_set_self k v l (by simp [hs])

theorem alookup_dictInsert_ne {α : Type} (l : List (String × α)) (k k' : String)
    (v : α) (hne : k' ≠ k) : alookup (dictInsert l k v) k' = alookup l k' := by
  unfold dictInsert
  cases hs : alookup l k with
  | none => simp only [hs, Option.isSome_none, Bool.false_eq_true, if_false]
            exact alookup_append_ne k k' v hne l
  | some w => simp only [hs, Option.isSome_some, if_true]
              exact alookup_map_set_ne k k' v hne l

/-- Claim C8 counterexample: adding a task under a missing parent id in
an empty tree raises the DataIntegrity condition, yet the tree is *not*
unchanged — the new task is already registered in the task map (the
insertion happens before the validation). -/
theorem add_task_missing_parent_mutates :
    (add_task ⟨[], []⟩ ⟨"t1", "x", 5, 0, 3, "pending", false, [], none⟩ (some "p"))
      = (⟨[("t1", ⟨"t1", "x", 5, 0, 3, "pending", false, [], none⟩)], []⟩,
         Except.error "DataIntegrityError")
    ∧ lookupTask
        (add_task ⟨[], []⟩ ⟨"t1", "x", 5, 0, 3, "pending", false, [], none⟩ (some "p")).1
        "t1"
      = some ⟨"t1", "x", 5, 0, 3, "pending", false, [], none⟩ := by
  exact ⟨rfl, rfl⟩

/-- Claim C8 (amended): calling `add_task` with a non-empty parent id
that is neither present in the tree nor equal to the new task's own id
raises the DataIntegrity condition and creates no parent link — the
adjacency map is unchanged — but the new task is left registered in the
task map. -/
theorem add_task_missing_parent (tr : DTree) (t : Task) (pid : String)
    (hne : pid ≠ "") (hnid : pid ≠ t.id)
    (habs : lookupTask tr pid = none) :
    (add_task tr t (some pid)).2 = Except.error "DataIntegrityError"
    ∧ (add_task tr t (some pid)).1.relationships = tr.relationships
    ∧ lookupTask (add_task tr t (some pid)).1 t.id = some t := by
  have hlook : alookup (dictInsert tr.tasks t.id t) pid = none := by
    rw [alookup_dictInsert_ne tr.tasks t.id pid t hnid]
    exact habs
  refine ⟨?_, ?_, ?_⟩ <;>
    simp [add_task, lookupTask, hne, hlook, alookup_dictInsert_self]

/-- Witness for `add_task_missing_parent` on an empty tree. -/
theorem add_task_missing_parent_witness :
    (add_task ⟨[], []⟩ ⟨"t2", "x", 5, 0, 3, "pending", false, [], none⟩ (some "q")).2
      = Except.error "DataIntegrityError"
    ∧ (add_task ⟨[], []⟩ ⟨"t2", "x", 5, 0, 3, "pending", false, [], none⟩ (some "q")).1.relationships
      = (⟨[], []⟩ : DTree).relationships
    ∧ lookupTask
        (add_task ⟨[], []⟩ ⟨"t2", "x", 5, 0, 3, "pending", false, [], none⟩ (some "q")).1
        "t2"
      = some ⟨"t2", "x", 5, 0, 3, "pending", false, [], none⟩ :=
  add_task_missing_parent ⟨[], []⟩ ⟨"t2", "x", 5, 0, 3, "pending", false, [], none⟩
    "q" (by decide) (by decide) rfl

/-! ### BaseAgent serialization (src/BaseAgent.py)

The live priority queue holds `(-task.priority, task)` pairs and pops
the smallest key first; it is embedded as a key-ascending sorted list
with FIFO placement among equal keys (the observable dequeue order).
`to_dict` emits `(-stored_key, task)` pairs — i.e. the positive
user-facing priority — and `from_dict` puts the emitted pairs back
verbatim.  Timestamps round-trip exactly through isoformat and are kept
as opaque strings; `Task.to_dict`/`Task.from_dict` round-trip exactly
per the spec (core/task.py is absent from src/), so queue entries carry
`Task` values directly. -/

def pqInsert (e : ℤ × Task) : List (ℤ × Task) → List (ℤ × Task)
  | [] => [e]
  | x :: xs => if e.1 < x.1 then e :: x :: xs else x :: pqInsert e xs

structure AgentState where
  id : String
  role : String
  skills : List String
  audit_log : List LogEntry
  workload : ℤ
  communication_channel : List (String × Msg)
  access_level : ℤ
  created_at : String
  last_active : String
  status : String
  error_count : ℕ
  queue : List (ℤ × Task)
  healthWindow : List ℚ
deriving DecidableEq

/-- The dictionary produced by `BaseAgent.to_dict`. -/
structure AgentDict where
  id : String
  role : String
  skills : List String
  audit_log : List LogEntry
  workload : ℤ
  communication_channel : List (String × Msg)
  access_level : ℤ
  created_at : String
  last_active : String
  status : String
  error_count : ℕ
  priority_queue_contents : List (ℤ × Task)
  health_history : List ℚ
deriving DecidableEq

namespace BaseAgent

/-- `receive_task`: sets `assigned_to`, pushes `(-priority, task)`,
increments the workload and logs `TASK_RECEIVED`. -/
def receive_task (a : AgentState) (t : Task) : AgentState :=
  { a with
    queue := pqInsert (-t.priority, { t with assigned_to := some a.id }) a.queue,
    workload := a.workload + 1,
    audit_log := a.audit_log ++ [⟨"TASK_RECEIVED", some t.id, none⟩] }

/-- `BaseAgent.to_dict`: every plain attribute is copied and the queue
is emitted as `[(-priority, task.to_dict()) for priority, task in
self.priority_queue.queue]`. -/
def to_dict (a : AgentState) : AgentDict :=
  { id := a.id, role := a.role, skills := a.skills, audit_log := a.audit_log,
    workload := a.workload, communication_channel := a.communication_channel,
    access_level := a.access_level, created_at := a.created_at,
    last_active := a.last_active, status := a.status,
    error_count := a.error_count,
    priority_queue_contents := a.queue.map fun p => (-p.1, p.2),
    health_history := a.healthWindow }

/-- `BaseAgent.from_dict`: every plain attribute is copied back and each
serialized `(priority, task_data)` pair is re-`put` *as stored* — the
key is not negated again. -/
def from_dict (d : AgentDict) : AgentState :=
  { id := d.id, role := d.role, skills := d.skills, audit_log := d.audit_log,
    workload := d.workload, communication_channel := d.communication_channel,
    access_level := d.access_level, created_at := d.created_at,
    last_active := d.last_active, status := d.status,
    error_count := d.error_count,
    queue := d.priority_queue_contents.foldl (fun q e => pqInsert e q) [],
    healthWindow := d.health_history }

end BaseAgent

def exQT5 : Task := ⟨"t5", "x", 5, 0, 3, "pending", false, [], none⟩

def exQT1 : Task := ⟨"t1", "x", 1, 0, 3, "pending", false, [], none⟩

def exAgent : AgentState :=
  BaseAgent.receive_task
    (BaseAgent.receive_task
      ⟨"a1", "worker", ["x"], [], 0, [], 1, "2024-01-01T00:00:00",
        "2024-01-01T00:00:00", "ready", 0, [], [1]⟩
      exQT5)
    exQT1

/-- Claim C4: the serialize/deserialize round trip does *not* reproduce
the agent: `to_dict` emits positive priorities and `from_dict` re-puts
them without re-negating, so an agent holding a priority-5 and a
priority-1 task (original dequeue order: priority 5 first) restores to a
queue that dequeues the priority-1 task first. -/
theorem agent_roundtrip_reorders_queue :
    exAgent.queue.map Prod.snd
      = [{ exQT5 with assigned_to := some "a1" },
         { exQT1 with assigned_to := some "a1" }]
    ∧ (BaseAgent.from_dict (BaseAgent.to_dict exAgent)).queue.map Prod.snd
      = [{ exQT1 with assigned_to := some "a1" },
         { exQT5 with assigned_to := some "a1" }]
    ∧ BaseAgent.from_dict (BaseAgent.to_dict exAgent) ≠ exAgent
    ∧ (BaseAgent.from_dict (BaseAgent.to_dict exAgent)).workload = exAgent.workload
    ∧ (BaseAgent.from_dict (BaseAgent.to_dict exAgent)).healthWindow = exAgent.healthWindow := by
  refine ⟨rfl, rfl, ?_, rfl, rfl⟩
  decide

end PIA
